import Mathlib

/-!
Verification of the concurrent find+grep utility (`src/main.rs`) against its
natural-language specification.

The development shallowly embeds the program's pure cores:

* the byte matcher: the `fold` run over a memory-mapped file's bytes inside
  `Search::search_file` (state `(num_matched, pos)`, emitting
  `SearchResult::Contents(path, pos)` offsets);
* the error aggregation combinator `lift`;
* the dispatch step `Search::search` / `search_dir` / `search_file`
  (filesystem effects are passed in as explicit oracle values, channel sends
  are modelled as succeeding and recorded in output lists);
* the reporter loop of `Search::process_queries`.

Bytes are modelled as `Nat` (a `u8` value, always < 256, never overflowing any
operation used here); paths and queries as `String`.
-/

namespace RustSearch

/-! ## The matcher

`Search::search_file` folds over the mapped bytes with accumulator
`(num_matched, pos)`, sending a `Contents(path, pos)` result whenever the
counter carried into an iteration equals the query length.  We make the sent
offsets explicit as a third accumulator component. -/

/-- The counter update at the bottom of the fold body:
`query_bytes.get(match_count).filter(|qb| *file_byte == **qb).map(|_| match_count + 1).unwrap_or(0)`. -/
def nextCount (query : List Nat) (matchCount fileByte : Nat) : Nat :=
  match query.get? matchCount with
  | some qb => if fileByte = qb then matchCount + 1 else 0
  | none => 0

/-- One iteration of the fold in `search_file` (lines 223-242): if the carried
counter satisfies `match_count >= query_bytes.len() && match_count > 0`, the
current `pos` is emitted and the counter reset; then the counter is advanced
against the current byte and `pos` incremented. -/
def matchStep (query : List Nat) (acc : Nat × Nat × List Nat) (fileByte : Nat) :
    Nat × Nat × List Nat :=
  let reset :=
    if query.length ≤ acc.1 ∧ 0 < acc.1 then (0, acc.2.2 ++ [acc.2.1])
    else (acc.1, acc.2.2)
  (nextCount query reset.1 fileByte, acc.2.1 + 1, reset.2)

/-- The whole scan: `mem_map.iter().fold((0, 0), ...)`, with the emitted
offsets made explicit. -/
def matcherFold (query bytes : List Nat) : Nat × Nat × List Nat :=
  bytes.foldl (matchStep query) (0, 0, [])

/-- The sequence of offsets the scan emits on the result channel, in emission
order. -/
def matcherEmits (query bytes : List Nat) : List Nat :=
  (matcherFold query bytes).2.2

/-- UTF-8 bytes of an ASCII string literal (for ASCII, code points and UTF-8
bytes coincide), matching `query.into_bytes()` on the Rust side. -/
def strBytes (s : String) : List Nat := s.data.map Char.toNat

/-! ## Application data model -/

/-- The application's error union (`enum AppError`, lines 92-98). -/
inductive AppError where
  | Startup (msg : String)
  | FileIO (msg : String)
  | Send (msg : String)
  | Aggregate (errs : List AppError)

/-- The result union (`enum SearchResult`, lines 106-112).  Note that a file
name match is tagged with the `Dir` constructor in the source (`search_file`
line 256 sends `SearchResult::Dir`), so both name-match kinds render
identically. -/
inductive SearchResult where
  | Contents (path : String) (pos : Nat)
  | File (path : String)
  | Dir (path : String)
  | Error (err : AppError) (ctx : String × String)

/-- The extraction `r.err()` on a `Result`. -/
def exceptErr {T : Type} : Except AppError T → Option AppError
  | .error e => some e
  | .ok _ => none

/-- The error aggregation combinator (`fn lift`, lines 115-124): partition the
results by `is_ok`, return all successes if no failure exists, otherwise an
`Aggregate` of all failures. -/
def lift {T : Type} (results : List (Except AppError T)) : Except AppError (List T) :=
  let p := results.partition (fun r => r.isOk)
  if p.2.isEmpty then
    Except.ok (p.1.filterMap Except.toOption)
  else
    Except.error (AppError.Aggregate (p.2.filterMap exceptErr))

/-! ## Name-match predicates and the dispatch step

Paths and queries are modelled as `String`; the string predicates from the
source (`str::ends_with`, `str::contains`) are modelled on the character
lists. -/

/-- Boolean test that `p` is a prefix of `l` (the character-level content of
`str::starts_with`, used below to build `ends_with` and `contains`). -/
def isPrefixList : List Char → List Char → Bool
  | [], _ => true
  | _ :: _, [] => false
  | a :: as, b :: bs => a = b && isPrefixList as bs

/-- Boolean test that `p` is a suffix of `l`: Rust `str::ends_with`. -/
def isSuffixList (p l : List Char) : Bool := isPrefixList p.reverse l.reverse

/-- Boolean test that `p` occurs as a contiguous substring of `l`: Rust
`str::contains` with a literal pattern. -/
def containsList (p l : List Char) : Bool :=
  (List.range (l.length + 1)).any (fun i => isPrefixList p (l.drop i))

/-- The directory name predicate (`search_dir` line 193): the full path
string ends with the query. -/
def dirNameMatches (path query : String) : Bool := isSuffixList query.data path.data

/-- The final path component.  This models `Path::file_name` for ordinary
file paths (no trailing separator): the characters after the last `/`. -/
def baseName (path : String) : String :=
  String.mk ((path.data.reverse.takeWhile (fun c => c ≠ '/')).reverse)

/-- The file name predicate (`search_file` line 255): the base name contains
the query as a substring. -/
def fileNameMatches (path query : String) : Bool :=
  containsList query.data (baseName path).data

/-- Observable outcome of dispatching one work item: the `SearchResult`s the
dispatching thread sends on the result channel, the child items it sends on
the work queue, the scan tasks it submits to the worker pool, and the
`Result` value `Search::search` returns to its caller.  Filesystem effects
(`fs::metadata`, `fs::read_dir`) are supplied as explicit oracle values and
channel sends are modelled as succeeding. -/
structure DispatchOutcome where
  results : List SearchResult
  enqueued : List (String × String)
  scanned : List (String × String)
  ret : Except AppError Unit

/-- The directory branch (`Search::search_dir`, lines 191-208): emit a `Dir`
name match if the full path ends with the query, re-enqueue every listable
child, and return the lifted combination of the per-child outcomes
(`read_dir` failure and per-entry failures become ` FileIO` errors). -/
def search_dir (path query : String)
    (listing : Except String (List (Except String String))) : DispatchOutcome :=
  let nameResults := if dirNameMatches path query then [SearchResult.Dir path] else []
  match listing with
  | .error e => ⟨nameResults, [], [], .error ( AppError.FileIO e)⟩
  | .ok entries =>
    let perChild : List (Except AppError Unit) :=
      entries.map (fun ent =>
        match ent with
        | .error e => .error ( AppError.FileIO e)
        | .ok _ => .ok ())
    ⟨nameResults,
      entries.filterMap (fun ent =>
        match ent with
        | .ok child => some (child, query)
        | .error _ => none),
      [],
      (lift perChild).map (fun _ => ())⟩

/-- The file branch (`Search::search_file`, lines 212-258): submit a scan
task for the file to the worker pool, and emit a name match (tagged `Dir`)
if the base name contains the query. -/
def search_file (path query : String) : DispatchOutcome :=
  ⟨if fileNameMatches path query then [SearchResult.Dir path] else [],
    [], [(path, query)], .ok ()⟩

/-- The dispatch of one work item (`Search::search`, lines 177-184): query
metadata (failure becomes a returned ` FileIO` error), then branch on
directory versus file. -/
def search (meta : Except String Bool)
    (listing : Except String (List (Except String String)))
    (path query : String) : DispatchOutcome :=
  match meta with
  | .error e => ⟨[], [], [], .error ( AppError.FileIO e)⟩
  | .ok true => search_dir path query listing
  | .ok false => search_file path query

/-- What the draining loop of `process_queries` (lines 137-146) puts on the
result channel when it pops one work item: the loop calls
`search.search(path, query)` inside `Result::map` and discards the returned
`Result`, so only the outcome's channel sends are observable. -/
def process_query (meta : Except String Bool)
    (listing : Except String (List (Except String String)))
    (path query : String) : List SearchResult :=
  (search meta listing path query).results

/-- The children a directory listing successfully yields, paired with the
query, in listing order (spec-side description of directory expansion). -/
def listedChildren (listing : Except String (List (Except String String)))
    (query : String) : List (String × String) :=
  match listing with
  | .error _ => []
  | .ok entries =>
    entries.filterMap (fun ent =>
      match ent with
      | .ok child => some (child, query)
      | .error _ => none)

/-! ## The reporter -/

/-- The reporter loop body (`process_queries`, lines 148-168), run over the
sequence of consumed results: the first component is everything written to
the output sink, the second the `(path, query, error)` contexts logged for
`Error` results. -/
def reporterRun : List SearchResult → String × List (String × String × AppError)
  | [] => ("", [])
  | r :: rest =>
    let acc := reporterRun rest
    match r with
    | .Contents path pos => (path ++ "::" ++ Nat.repr pos ++ "\n" ++ acc.1, acc.2)
    | .File path => (path ++ "\n" ++ acc.1, acc.2)
    | .Dir path => (path ++ "\n" ++ acc.1, acc.2)
    | .Error e (path, query) => (acc.1, (path, query, e) :: acc.2)

/-- Spec-side rendering of one result as an output line: `ContentMatch` as
the line `<path>::<offset>`, name matches as the line `<path>`, nothing for
`Error`. -/
def specLine : SearchResult → Option String
  | .Contents path off => some (path ++ "::" ++ Nat.repr off ++ "\n")
  | .File path => some (path ++ "\n")
  | .Dir path => some (path ++ "\n")
  | .Error _ _ => none

/-- Spec-side logging of one result: `Error` results are logged with their
path, query and error kind; nothing else is logged. -/
def specLog : SearchResult → Option (String × String × AppError)
  | .Error e (path, query) => some (path, query, e)
  | _ => none

/-- A sample input for the aggregation combinator: three results of which
exactly one is a failure. -/
def liftSample : List (Except AppError Nat) :=
  [Except.ok 1, Except.error ( AppError.FileIO "x"), Except.ok 2]

lemma nextCount_le (query : List Nat) (m b : Nat) :
    nextCount query m b ≤ query.length := by
  unfold nextCount
  cases h : query.get? m with
  | none => exact Nat.zero_le _
  | some qb =>
    dsimp only
    obtain ⟨hlt, -⟩ := List.get?_eq_some.mp h
    by_cases hb : b = qb
    · rw [if_pos hb]
      exact hlt
    · rw [if_neg hb]
      exact Nat.zero_le _

lemma nextCount_le_succ (query : List Nat) (m b : Nat) :
    nextCount query m b ≤ m + 1 := by
  unfold nextCount
  cases h : query.get? m with
  | none => exact Nat.zero_le _
  | some qb =>
    dsimp only
    by_cases hb : b = qb
    · rw [if_pos hb]
    · rw [if_neg hb]
      exact Nat.zero_le _

/-- Advancing the counter preserves the running-suffix invariant: after
consuming byte `b`, the last `nextCount q m b` bytes of the consumed prefix
are exactly the first `nextCount q m b` bytes of the query. -/
lemma nextCount_suffix (q done : List Nat) (m b : Nat)
    (hm : m ≤ done.length)
    (hsuf : done.drop (done.length - m) = q.take m) :
    (done ++ [b]).drop ((done ++ [b]).length - nextCount q m b)
      = q.take (nextCount q m b) := by
  unfold nextCount
  cases hget : q.get? m with
  | none =>
    simp only [List.take_zero]
    exact List.drop_eq_nil_of_le (by simp)
  | some qb =>
    dsimp only
    by_cases hb : b = qb
    · rw [if_pos hb]
      have hlen : (done ++ [b]).length - (m + 1) = done.length - m := by
        simp only [List.length_append, List.length_singleton]
        omega
      rw [hlen, List.drop_append_of_le_length (by omega), hsuf, List.take_succ]
      have hqm : q[m]? = some qb := by
        rw [← List.get?_eq_getElem?]
        exact hget
      rw [hqm, hb]
      rfl
    · rw [if_neg hb]
      simp only [List.take_zero]
      exact List.drop_eq_nil_of_le (by simp)

/-- Main invariant of the matcher fold.  Starting from a state whose counter
`m` records that the last `m` consumed bytes equal the first `m` query bytes,
and whose emitted list contains only valid, strictly increasing offsets below
the consumed length, the fold over the remaining bytes ends with an emitted
list of valid, strictly increasing offsets below the total length. -/
lemma matcher_inv (q S : List Nat) :
    ∀ (rest done emitted : List Nat) (m : Nat),
      done ++ rest = S →
      m ≤ q.length →
      m ≤ done.length →
      done.drop (done.length - m) = q.take m →
      (∀ e ∈ emitted,
        (q.length ≤ e ∧ (S.drop (e - q.length)).take q.length = q) ∧
          e < done.length) →
      List.Pairwise (· < ·) emitted →
      (∀ e ∈ (List.foldl (matchStep q) (m, done.length, emitted) rest).2.2,
        (q.length ≤ e ∧ (S.drop (e - q.length)).take q.length = q) ∧
          e < S.length) ∧
      List.Pairwise (· < ·)
        (List.foldl (matchStep q) (m, done.length, emitted) rest).2.2 := by
  intro rest
  induction rest with
  | nil =>
    intro done emitted m hS hmq hmd hsuf hem hpw
    rw [List.append_nil] at hS
    subst hS
    simp only [List.foldl_nil]
    exact ⟨fun e he => ⟨(hem e he).1, (hem e he).2⟩, hpw⟩
  | cons b rest ih =>
    intro done emitted m hS hmq hmd hsuf hem hpw
    rw [List.foldl_cons]
    have hS' : (done ++ [b]) ++ rest = S := by simpa using hS
    have hlen : done.length + 1 = (done ++ [b]).length := by simp
    by_cases hcond : q.length ≤ m ∧ 0 < m
    · have hmq' : m = q.length := le_antisymm hmq hcond.1
      have hstep : matchStep q (m, done.length, emitted) b
          = (nextCount q 0 b, done.length + 1, emitted ++ [done.length]) := by
        simp [matchStep, hcond]
      rw [hstep, hlen]
      apply ih (done ++ [b]) (emitted ++ [done.length]) (nextCount q 0 b) hS'
        (nextCount_le q 0 b)
        (le_trans (nextCount_le_succ q 0 b) (by simp))
        (nextCount_suffix q done 0 b (Nat.zero_le _)
          (by simp only [Nat.sub_zero, List.take_zero]
              exact List.drop_eq_nil_of_le (le_refl _)))
      · intro e he
        rcases List.mem_append.mp he with hold | hnew
        · exact ⟨(hem e hold).1, lt_trans (hem e hold).2 (by simp)⟩
        · have he' : e = done.length := by simpa using hnew
          subst he'
          refine ⟨⟨hmq' ▸ hmd, ?_⟩, by simp⟩
          have hdropS : S.drop (done.length - q.length)
              = done.drop (done.length - q.length) ++ (b :: rest) := by
            rw [← hS]
            exact List.drop_append_of_le_length (by omega)
          have hq : done.drop (done.length - q.length) = q := by
            have := hsuf
            rw [hmq'] at this
            rw [this, List.take_length]
          rw [hdropS, hq]
          exact List.take_left' rfl
      · rw [List.pairwise_append]
        refine ⟨hpw, List.pairwise_singleton _ _, ?_⟩
        intro a ha c hc
        have hc' : c = done.length := by simpa using hc
        subst hc'
        exact (hem a ha).2
    · have hstep : matchStep q (m, done.length, emitted) b
          = (nextCount q m b, done.length + 1, emitted) := by
        simp [matchStep, hcond]
      rw [hstep, hlen]
      apply ih (done ++ [b]) emitted (nextCount q m b) hS'
        (nextCount_le q m b)
        (le_trans (nextCount_le_succ q m b) (by simp; omega))
        (nextCount_suffix q done m b hmd hsuf)
      · intro e he
        exact ⟨(hem e he).1, lt_trans (hem e he).2 (by simp)⟩
      · exact hpw

/-- Every emitted offset `e` marks a genuine occurrence of the query ending
at `e` (the query occupies `S[e - |q| .. e)`), lies strictly below the input
length, and the emitted list is strictly increasing. -/
lemma matcher_emits_sound (q S : List Nat) :
    (∀ e ∈ matcherEmits q S,
      (q.length ≤ e ∧ (S.drop (e - q.length)).take q.length = q) ∧
        e < S.length) ∧
    List.Pairwise (· < ·) (matcherEmits q S) := by
  have h := matcher_inv q S S [] [] 0 rfl (Nat.zero_le _) (Nat.zero_le _)
    (by simp) (by simp) List.Pairwise.nil
  simpa [matcherEmits, matcherFold] using h

/-- With an empty query the fold never changes the counter and never emits:
the reset condition `match_count >= 0 && match_count > 0` needs a positive
counter, and `query_bytes.get(0)` is `None` so the counter stays `0`. -/
lemma matcher_fold_empty_query (S : List Nat) :
    ∀ (pos : Nat) (emitted : List Nat),
      List.foldl (matchStep []) (0, pos, emitted) S = (0, pos + S.length, emitted) := by
  induction S with
  | nil => intro pos emitted; simp
  | cons b rest ih =>
    intro pos emitted
    rw [List.foldl_cons]
    have hstep : matchStep [] (0, pos, emitted) b = (0, pos + 1, emitted) := by
      simp [matchStep, nextCount]
    rw [hstep, ih]
    simp only [List.length_cons]
    have harith : pos + 1 + rest.length = pos + (rest.length + 1) := by omega
    rw [harith]

/-- C1: every offset `k` emitted by the Matcher scan for a non-empty pattern
`q` over bytes `S` satisfies `S[k - |q| .. k] = q`, and the emitted sequence
is strictly increasing. -/
theorem matcher_offsets_valid (S q : List Nat) (_hq : q ≠ []) :
    (∀ k ∈ matcherEmits q S,
      q.length ≤ k ∧ (S.drop (k - q.length)).take q.length = q) ∧
    List.Pairwise (· < ·) (matcherEmits q S) :=
  ⟨fun k hk => ((matcher_emits_sound q S).1 k hk).1, (matcher_emits_sound q S).2⟩

theorem matcher_offsets_valid_witness :
    ([2] ≠ ([] : List Nat)) ∧
    ((∀ k ∈ matcherEmits [2] [1, 2, 3],
        List.length [2] ≤ k ∧
          (List.drop (k - List.length [2]) [1, 2, 3]).take (List.length [2]) = [2]) ∧
      List.Pairwise (· < ·) (matcherEmits [2] [1, 2, 3])) :=
  ⟨by decide, matcher_offsets_valid [1, 2, 3] [2] (by decide)⟩

/-- C2: each emitted offset is one-past-the-end of the matched run: it equals
some occurrence start `s` plus the pattern length (where the pattern occurs at
`s`), and in particular is strictly greater than the start offset. -/
theorem matcher_offsets_one_past_end (S q : List Nat) (hq : q ≠ []) :
    ∀ k ∈ matcherEmits q S,
      ∃ s, k = s + q.length ∧ (S.drop s).take q.length = q ∧ s < k := by
  intro k hk
  obtain ⟨⟨hle, hmatch⟩, -⟩ := (matcher_emits_sound q S).1 k hk
  have hq0 : 0 < q.length := List.length_pos.mpr hq
  exact ⟨k - q.length, by omega, hmatch, by omega⟩

theorem matcher_offsets_one_past_end_witness :
    ([7] ≠ ([] : List Nat)) ∧
    (∀ k ∈ matcherEmits [7] [7, 7],
      ∃ s, k = s + List.length [7] ∧
        (List.drop s [7, 7]).take (List.length [7]) = [7] ∧ s < k) :=
  ⟨by decide, matcher_offsets_one_past_end [7, 7] [7] (by decide)⟩

/-- C3: an occurrence whose final byte is the last byte of the input is never
emitted (every emitted offset is strictly below the input length, while such
an occurrence would be reported at offset exactly the input length), and
scanning `S = q` itself emits nothing. -/
theorem matcher_no_match_at_end (S q : List Nat) (_hq : q ≠ []) :
    (∀ k ∈ matcherEmits q S, k < S.length) ∧ matcherEmits q q = [] := by
  constructor
  · intro k hk
    exact ((matcher_emits_sound q S).1 k hk).2
  · rw [List.eq_nil_iff_forall_not_mem]
    intro k hk
    obtain ⟨⟨hle, -⟩, hlt⟩ := (matcher_emits_sound q q).1 k hk
    omega

theorem matcher_no_match_at_end_witness :
    (strBytes "abc" ≠ []) ∧
    ((∀ k ∈ matcherEmits (strBytes "abc") (strBytes "xabc"), k < (strBytes "xabc").length) ∧
      matcherEmits (strBytes "abc") (strBytes "abc") = []) :=
  ⟨by decide, matcher_no_match_at_end (strBytes "xabc") (strBytes "abc") (by decide)⟩

/-- C4 counterexample: the Matcher over bytes of `"xabcabcx"` with pattern
`"abc"` does not emit `[4, 8]` (it emits `[4, 7]`: the second occurrence ends
entering index 6 and is detected while visiting index 7). -/
theorem matcher_xabcabcx_not_4_8 :
    ¬ matcherEmits (strBytes "abc") (strBytes "xabcabcx") = [4, 8] := by
  decide

/-- C4 amended: the Matcher over bytes of `"xabcabcx"` with pattern `"abc"`
emits exactly the offsets `[4, 7]`, in that order. -/
theorem matcher_xabcabcx_emits_4_7 :
    matcherEmits (strBytes "abc") (strBytes "xabcabcx") = [4, 7] := by
  decide

/-- C5 counterexample: the Matcher over bytes of `"aaaa"` with pattern `"aa"`
does not emit `[3]` (the first match ends entering index 1 and is detected
while visiting index 2). -/
theorem matcher_aaaa_not_3 :
    ¬ matcherEmits (strBytes "aa") (strBytes "aaaa") = [3] := by
  decide

/-- C5 amended: the Matcher over bytes of `"aaaa"` with pattern `"aa"` emits
exactly one offset, namely `[2]` — non-overlapping matching, no overlapping
second match is emitted. -/
theorem matcher_aaaa_emits_2 :
    matcherEmits (strBytes "aa") (strBytes "aaaa") = [2] := by
  decide

/-- C10: with an empty query the scan emits no offsets at all, and the match
counter is `0` at every intermediate point of the fold (so the completed-match
condition `match_count >= len && match_count > 0` is never satisfied). -/
theorem matcher_empty_query (S : List Nat) (p : Nat) :
    (List.foldl (matchStep []) (0, 0, []) (S.take p)).1 = 0 ∧
      matcherEmits [] S = [] := by
  constructor
  · rw [matcher_fold_empty_query]
  · unfold matcherEmits matcherFold
    rw [matcher_fold_empty_query]

/-! ## Error aggregation -/

lemma filterMap_exceptErr_filter {T : Type} (l : List (Except AppError T)) :
    (l.filter (not ∘ fun r => r.isOk)).filterMap exceptErr = l.filterMap exceptErr := by
  induction l with
  | nil => rfl
  | cons r rest ih =>
    cases r with
    | ok a =>
      show (rest.filter (not ∘ fun r => r.isOk)).filterMap exceptErr
          = rest.filterMap exceptErr
      exact ih
    | error e =>
      show e :: (rest.filter (not ∘ fun r => r.isOk)).filterMap exceptErr
          = e :: rest.filterMap exceptErr
      rw [ih]

/-- C6: `lift` returns `Ok` with all success values in their original order
when no element is an error, and otherwise `Err(Aggregate l)` where `l` is
exactly the error values in their original relative order. -/
theorem lift_spec {T : Type} (results : List (Except AppError T)) :
    ((∀ r ∈ results, r.isOk = true) →
      lift results = Except.ok (results.filterMap Except.toOption)) ∧
    ((∃ r ∈ results, r.isOk = false) →
      lift results = Except.error (AppError.Aggregate (results.filterMap exceptErr))) := by
  constructor
  · intro hall
    simp only [lift, List.partition_eq_filter_filter]
    have hnil : results.filter (not ∘ fun r => r.isOk) = [] := by
      rw [List.filter_eq_nil_iff]
      intro a ha
      simp [hall a ha]
    rw [hnil, List.filter_eq_self.mpr hall]
    rfl
  · rintro ⟨r, hr, hko⟩
    simp only [lift, List.partition_eq_filter_filter]
    have hmem : r ∈ results.filter (not ∘ fun x => x.isOk) :=
      List.mem_filter.mpr ⟨hr, by simp [hko]⟩
    have hne : (results.filter (not ∘ fun x => x.isOk)).isEmpty = false := by
      cases hemp : (results.filter (not ∘ fun x => x.isOk)).isEmpty
      · rfl
      · rw [List.isEmpty_iff.mp hemp] at hmem
        exact absurd hmem (List.not_mem_nil r)
    rw [hne]
    simp only [Bool.false_eq_true, if_false]
    rw [filterMap_exceptErr_filter]

theorem lift_spec_witness :
    (∃ r ∈ liftSample, r.isOk = false) ∧
    lift liftSample = Except.error (AppError.Aggregate [ AppError.FileIO "x"]) :=
  ⟨⟨Except.error ( AppError.FileIO "x"), by simp [liftSample], rfl⟩,
    (lift_spec liftSample).2 ⟨Except.error ( AppError.FileIO "x"), by simp [liftSample], rfl⟩⟩

/-! ## Dispatch -/

/-- C7 counterexample: a work item whose metadata query fails produces no
`SearchResult` at all on the result channel — in particular no
`Error( FileIO, item)` — because `Search::search` merely returns the error
and the draining loop discards the returned `Result`. -/
theorem metadata_failure_emits_nothing :
    process_query (Except.error "denied") (Except.ok []) "/p" "q" = [] ∧
    (∀ e ctx, SearchResult.Error e ctx ∉
      process_query (Except.error "denied") (Except.ok []) "/p" "q") ∧
    (search (Except.error "denied") (Except.ok []) "/p" "q").ret
      = Except.error ( AppError.FileIO "denied") := by
  refine ⟨rfl, ?_, rfl⟩
  intro e ctx h
  simp [process_query, search] at h

/-- C7 amended: every popped work item is either expanded (directory: its
listable children are enqueued), scanned (file: a scan task is submitted),
or its failure is returned as an `Err` value from `Search::search` — which
the draining loop then discards; in particular a metadata failure emits
nothing on the result channel and enqueues and scans nothing. -/
theorem dispatch_outcome (meta : Except String Bool)
    (listing : Except String (List (Except String String))) (path query : String) :
    (∀ e, meta = Except.error e →
      (search meta listing path query).results = [] ∧
      (search meta listing path query).enqueued = [] ∧
      (search meta listing path query).scanned = [] ∧
      (search meta listing path query).ret = Except.error ( AppError.FileIO e)) ∧
    (meta = Except.ok true →
      (search meta listing path query).enqueued = listedChildren listing query ∧
      (search meta listing path query).scanned = []) ∧
    (meta = Except.ok false →
      (search meta listing path query).scanned = [(path, query)] ∧
      (search meta listing path query).ret = Except.ok ()) := by
  refine ⟨?_, ?_, ?_⟩
  · intro e he
    subst he
    exact ⟨rfl, rfl, rfl, rfl⟩
  · intro he
    subst he
    cases listing with
    | error e => exact ⟨rfl, rfl⟩
    | ok entries => exact ⟨rfl, rfl⟩
  · intro he
    subst he
    exact ⟨rfl, rfl⟩

theorem dispatch_outcome_witness :
    ((Except.error "lost" : Except String Bool) = Except.error "lost") ∧
    ((search (Except.error "lost") (Except.ok []) "/root/a" "abc").results = [] ∧
      (search (Except.error "lost") (Except.ok []) "/root/a" "abc").enqueued = [] ∧
      (search (Except.error "lost") (Except.ok []) "/root/a" "abc").scanned = [] ∧
      (search (Except.error "lost") (Except.ok []) "/root/a" "abc").ret
        = Except.error ( AppError.FileIO "lost")) :=
  ⟨rfl, (dispatch_outcome (Except.error "lost") (Except.ok []) "/root/a" "abc").1 "lost" rfl⟩

/-! ## Name matching -/

lemma isPrefixList_iff (p l : List Char) : isPrefixList p l = true ↔ p <+: l := by
  induction p generalizing l with
  | nil =>
    simp only [isPrefixList]
    exact iff_of_true trivial ⟨l, rfl⟩
  | cons a as ih =>
    cases l with
    | nil => simp [isPrefixList]
    | cons b bs =>
      rw [List.cons_prefix_cons]
      simp [isPrefixList, ih]

lemma isSuffixList_iff (p l : List Char) : isSuffixList p l = true ↔ p <:+ l := by
  unfold isSuffixList
  rw [isPrefixList_iff, List.reverse_prefix]

lemma containsList_iff (p l : List Char) : containsList p l = true ↔ p <:+: l := by
  unfold containsList
  rw [List.any_eq_true]
  constructor
  · rintro ⟨i, -, hp⟩
    rw [isPrefixList_iff] at hp
    exact List.infix_iff_prefix_suffix.mpr ⟨l.drop i, hp, List.drop_suffix i l⟩
  · intro hinf
    obtain ⟨t, hpt, htl⟩ := List.infix_iff_prefix_suffix.mp hinf
    have hlen := htl.length_le
    refine ⟨l.length - t.length, List.mem_range.mpr (by omega), ?_⟩
    rw [isPrefixList_iff, ← List.suffix_iff_eq_drop.mp htl]
    exact hpt

/-- C8: a dispatched directory yields a name match exactly when its full
path string ends with the query as a literal suffix, while a dispatched file
yields a name match exactly when its base name contains the query as a
substring anywhere; the two predicates are not unified (inputs exist on
which they disagree, in both directions). -/
theorem name_predicates (listing : Except String (List (Except String String)))
    (path query : String) :
    (SearchResult.Dir path ∈ (search (Except.ok true) listing path query).results
      ↔ query.data <:+ path.data) ∧
    (SearchResult.Dir path ∈ (search (Except.ok false) listing path query).results
      ↔ query.data <:+: (baseName path).data) ∧
    (dirNameMatches "/a/sub" "a/sub" = true ∧ fileNameMatches "/a/sub" "a/sub" = false) ∧
    (dirNameMatches "/d/xfooy" "foo" = false ∧ fileNameMatches "/d/xfooy" "foo" = true) := by
  refine ⟨?_, ?_, by decide, by decide⟩
  · have hres : (search (Except.ok true) listing path query).results
        = if dirNameMatches path query then [SearchResult.Dir path] else [] := by
      cases listing <;> rfl
    rw [hres, ← isSuffixList_iff]
    by_cases h : isSuffixList query.data path.data
    · simp [dirNameMatches, h]
    · simp [dirNameMatches, h]
  · have hres : (search (Except.ok false) listing path query).results
        = if fileNameMatches path query then [SearchResult.Dir path] else [] := rfl
    rw [hres, ← containsList_iff]
    by_cases h : containsList query.data (baseName path).data
    · simp [fileNameMatches, h]
    · simp [fileNameMatches, h]

/-! ## Reporting -/

/-- C9: over any consumed sequence of results, the reporter writes exactly
the lines `<path>::<offset>` for `ContentMatch` results and `<path>` for
name-match results, in order, and `Error` results contribute nothing to the
output sink but are logged with their path, query and error kind. -/
theorem reporter_spec (rs : List SearchResult) :
    (reporterRun rs).1 = (rs.filterMap specLine).foldr (· ++ ·) "" ∧
    (reporterRun rs).2 = rs.filterMap specLog := by
  induction rs with
  | nil => exact ⟨rfl, rfl⟩
  | cons r rest ih =>
    cases r with
    | Contents path pos => simp [reporterRun, specLine, specLog, ih.1, ih.2]
    | File path => simp [reporterRun, specLine, specLog, ih.1, ih.2]
    | Dir path => simp [reporterRun, specLine, specLog, ih.1, ih.2]
    | Error e ctx =>
      obtain ⟨p, q⟩ := ctx
      simp [reporterRun, specLine, specLog, ih.1, ih.2]

end RustSearch
